import Mathlib

/-!
Verification of the state-scan validation core
(src/archive/v1/validation/compare-v7.py and compare.py).

The Python core works on findings (dicts with optional keys `className`,
`fieldName`, `fieldType`), builds comparison keys, reconciles two finding
collections through insertion-ordered dictionaries, computes
precision/recall/F1, and categorizes findings by substring patterns on the
declared field type.

Embedding notes:
* A finding is a record of `Option String` fields; `Option.getD _ ""`
  models Python `dict.get(key, '')`.
* A Python `dict` (insertion-ordered, last-write-wins on values, a
  duplicate insert keeps the key's original position) is modelled as an
  association list built by `dictInsert`.
* `str.replace('$', '.')` with single-character pattern and replacement is
  the character-wise map sending `'$'` to `'.'`.
* Python `in` on strings is substring containment, modelled as list
  infix containment on the character lists.
* The float arithmetic of the metrics block is modelled over `ℚ`; all
  quantities involved are exact ratios of small naturals.
-/

namespace StateScan

/-- A finding record; `none` models an absent dictionary key. -/
structure Finding where
  className : Option String
  fieldName : Option String
  fieldType : Option String
deriving DecidableEq

/-- Function `normalize_class_name` from compare-v7.py line 12 / compare.py
line 13: `name.replace('$', '.')`, i.e. every `'$'` character becomes `'.'`. -/
def normalize_class_name (name : String) : String :=
  String.mk (name.data.map fun c => if c = '$' then '.' else c)

/-- Function `create_key` from compare-v7.py lines 14-18: the formatted
string of class name, separator `::` and field name, with `dict.get`
defaults for missing keys. -/
def create_key (finding : Finding) : String :=
  normalize_class_name (finding.className.getD "") ++ "::" ++ finding.fieldName.getD ""

/-- Association-list model of one Python dict insertion `m[k] = v`:
an existing key keeps its position and gets the new value, a new key is
appended at the end. -/
def dictInsert (m : List (String × Finding)) (k : String) (v : Finding) :
    List (String × Finding) :=
  if m.any (fun p => p.1 = k) then
    m.map (fun p => if p.1 = k then (k, v) else p)
  else
    m ++ [(k, v)]

/-- The dict comprehension `{create_key(f): f for f in findings}`
(compare-v7.py lines 49-50). -/
def buildKeyMap (findings : List Finding) : List (String × Finding) :=
  findings.foldl (fun m f => dictInsert m (create_key f) f) []

/-- Python dict membership / subscription, `k in m` and `m[k]`, on the
association-list model (keys are unique, so first match is the entry). -/
def lookupKey : List (String × Finding) → String → Option Finding
  | [], _ => none
  | p :: rest, k => if p.1 = k then some p.2 else lookupKey rest k

/-- Function `compare` from compare-v7.py lines 47-66 (identical in
compare.py lines 43-64): build the two key dicts, then partition into true positives
(matched pairs), false positives (scanner-only) and false negatives
(ground-truth-only), iterating each dict in insertion order. -/
def compare (statescan_findings ground_truth : List Finding) :
    List (Finding × Finding) × List Finding × List Finding :=
  let statescan_keys := buildKeyMap statescan_findings
  let ground_truth_keys := buildKeyMap ground_truth
  let true_positives := statescan_keys.filterMap
    (fun p => (lookupKey ground_truth_keys p.1).map (fun g => (p.2, g)))
  let false_positives := (statescan_keys.filter
    (fun p => lookupKey ground_truth_keys p.1 = none)).map Prod.snd
  let false_negatives := (ground_truth_keys.filter
    (fun p => lookupKey statescan_keys p.1 = none)).map Prod.snd
  (true_positives, false_positives, false_negatives)

/-- Python substring test `pat in s`. -/
def hasSub (s pat : String) : Bool :=
  decide (pat.data <:+: s.data)

/-- The category label assigned to one field type string by the
if/elif chain of `categorize_by_type` (compare-v7.py lines 74-91). -/
def categorize_by_type (field_type : String) : String :=
  if hasSub field_type "ThreadLocal" || hasSub field_type "FastThreadLocal" then
    "ThreadLocal"
  else if hasSub field_type "Counter" || hasSub field_type "Gauge" ||
      hasSub field_type "Histogram" || hasSub field_type "Summary" then
    "Metrics"
  else if hasSub field_type "Cache" || hasSub field_type "LoadingCache" then
    "Cache"
  else if hasSub field_type "Map" || hasSub field_type "HashMap" ||
      hasSub field_type "ConcurrentHashMap" then
    "Map"
  else if hasSub field_type "List" || hasSub field_type "ArrayList" then
    "List"
  else if hasSub field_type "Set" then
    "Set"
  else if hasSub field_type "Atomic" then
    "Atomic"
  else if hasSub field_type "Recorder" then
    "Recorder"
  else
    "Other"

/-- The spec's view of §4.4: an ordered table of (predicate, label)
pairs; a finding gets the label of the first predicate that matches. -/
def predTable : List ((String → Bool) × String) :=
  [(fun t => hasSub t "ThreadLocal" || hasSub t "FastThreadLocal", "ThreadLocal"),
   (fun t => hasSub t "Counter" || hasSub t "Gauge" ||
      hasSub t "Histogram" || hasSub t "Summary", "Metrics"),
   (fun t => hasSub t "Cache" || hasSub t "LoadingCache", "Cache"),
   (fun t => hasSub t "Map" || hasSub t "HashMap" ||
      hasSub t "ConcurrentHashMap", "Map"),
   (fun t => hasSub t "List" || hasSub t "ArrayList", "List"),
   (fun t => hasSub t "Set", "Set"),
   (fun t => hasSub t "Atomic", "Atomic"),
   (fun t => hasSub t "Recorder", "Recorder")]

/-- Label of the first matching predicate of `predTable`, `"Other"` as the
catch-all. -/
def firstMatchLabel (field_type : String) : String :=
  match predTable.find? (fun pr => pr.1 field_type) with
  | some pr => pr.2
  | none => "Other"

/-- The metrics block of `main` (compare-v7.py lines 115-117 / compare.py
lines 97-99), over the sizes of the three partitions. -/
def computeMetrics (tp fp fn : ℕ) : ℚ × ℚ × ℚ :=
  let precisionVal : ℚ := if tp + fp > 0 then (tp : ℚ) / ((tp : ℚ) + (fp : ℚ)) else 0
  let recallVal : ℚ := if tp + fn > 0 then (tp : ℚ) / ((tp : ℚ) + (fn : ℚ)) else 0
  let f1Val : ℚ := if precisionVal + recallVal > 0 then
      2 * precisionVal * recallVal / (precisionVal + recallVal) else 0
  (precisionVal, recallVal, f1Val)

/-- Keys of a finding collection in order of first occurrence, with later
duplicates dropped (the iteration order of the Python dict's keys). -/
def dedupFirst (l : List String) : List String :=
  l.foldl (fun acc k => if k ∈ acc then acc else acc ++ [k]) []

/-- The metrics of a whole comparison run: `compare` followed by the
metrics block of `main`, which receives the three partition lengths. -/
def metricsOf (statescan_findings ground_truth : List Finding) : ℚ × ℚ × ℚ :=
  let r := compare statescan_findings ground_truth
  computeMetrics r.1.length r.2.1.length r.2.2.length

/-- The metric formulas exactly as the spec states them (§4.3): each value
is `0` when its denominator is `0`. Used to compare against
`computeMetrics`, which is transcribed from the code. -/
def metricsSpec (tp fp fn : ℕ) : ℚ × ℚ × ℚ :=
  let precisionVal : ℚ := if tp + fp = 0 then 0 else (tp : ℚ) / ((tp : ℚ) + (fp : ℚ))
  let recallVal : ℚ := if tp + fn = 0 then 0 else (tp : ℚ) / ((tp : ℚ) + (fn : ℚ))
  let f1Val : ℚ := if precisionVal + recallVal = 0 then 0 else
      2 * precisionVal * recallVal / (precisionVal + recallVal)
  (precisionVal, recallVal, f1Val)

/-- The last finding of the collection whose comparison key is `k`
(`none` when the key never occurs). -/
def lastOcc (findings : List Finding) (k : String) : Option Finding :=
  (findings.filter (fun f => create_key f = k)).getLast?

/-- A concrete finding; shares its comparison key with `fDup2`. -/
def fDup1 : Finding := ⟨some "C", some "f", some "T1"⟩

/-- A concrete finding; shares its comparison key with `fDup1`. -/
def fDup2 : Finding := ⟨some "C", some "f", some "T2"⟩

/-! Helper lemmas about normalization -/

lemma normalize_step_idem (c : Char) :
    (if (if c = '$' then '.' else c) = '$' then '.' else (if c = '$' then '.' else c))
      = (if c = '$' then '.' else c) := by
  by_cases h : c = '$' <;> simp [h]

lemma data_normalize (s : String) :
    (normalize_class_name s).data = s.data.map (fun c => if c = '$' then '.' else c) :=
  rfl

lemma normalize_idem_aux (x : String) :
    normalize_class_name (normalize_class_name x) = normalize_class_name x := by
  unfold normalize_class_name
  apply congrArg String.mk
  rw [String.data]
  simp only [List.map_map]
  apply List.map_congr_left
  intro c _
  simpa using normalize_step_idem c

/-! Helper lemmas about the dict model -/

lemma any_key_eq (m : List (String × Finding)) (k : String) :
    (m.any fun p => p.1 = k) = true ↔ k ∈ m.map Prod.fst := by
  simp only [List.any_eq_true, decide_eq_true_eq, List.mem_map]

lemma lookupKey_eq_none (m : List (String × Finding)) (k : String) :
    lookupKey m k = none ↔ k ∉ m.map Prod.fst := by
  induction m with
  | nil => simp [lookupKey]
  | cons p rest ih =>
    by_cases h : p.1 = k
    · simp [lookupKey, h]
    · rw [lookupKey, if_neg h, ih]
      simp only [List.map_cons, List.mem_cons, not_or]
      constructor
      · intro hn
        exact ⟨fun hk => h hk.symm, hn⟩
      · exact And.right

lemma lookupKey_isSome (m : List (String × Finding)) (k : String) :
    (lookupKey m k).isSome = true ↔ k ∈ m.map Prod.fst := by
  simp [Option.isSome_iff_ne_none, lookupKey_eq_none]

lemma keys_dictInsert (m : List (String × Finding)) (k : String) (v : Finding) :
    (dictInsert m k v).map Prod.fst =
      if k ∈ m.map Prod.fst then m.map Prod.fst else m.map Prod.fst ++ [k] := by
  unfold dictInsert
  by_cases h : k ∈ m.map Prod.fst
  · rw [if_pos ((any_key_eq m k).mpr h), if_pos h, List.map_map]
    apply List.map_congr_left
    intro p _
    by_cases hp : p.1 = k <;> simp [hp]
  · rw [if_neg (by simpa using (any_key_eq m k).not.mpr h), if_neg h]
    simp

lemma keys_foldl_dictInsert (fs : List Finding) :
    ∀ m : List (String × Finding),
      ((fs.foldl (fun m f => dictInsert m (create_key f) f) m).map Prod.fst) =
        (fs.map create_key).foldl
          (fun acc k => if k ∈ acc then acc else acc ++ [k]) (m.map Prod.fst) := by
  induction fs with
  | nil => intro m; rfl
  | cons f rest ih =>
    intro m
    simp only [List.foldl_cons, List.map_cons]
    rw [ih, keys_dictInsert]

lemma keys_buildKeyMap (fs : List Finding) :
    (buildKeyMap fs).map Prod.fst = dedupFirst (fs.map create_key) := by
  unfold buildKeyMap dedupFirst
  simpa using keys_foldl_dictInsert fs []

lemma dedupFirst_fold_nodup (l : List String) :
    ∀ acc : List String, acc.Nodup →
      (l.foldl (fun acc k => if k ∈ acc then acc else acc ++ [k]) acc).Nodup := by
  induction l with
  | nil => intro acc h; exact h
  | cons k rest ih =>
    intro acc h
    simp only [List.foldl_cons]
    by_cases hk : k ∈ acc
    · rw [if_pos hk]; exact ih acc h
    · rw [if_neg hk]
      exact ih _ (by simp [List.nodup_append, h, hk])

lemma dedupFirst_nodup (l : List String) : (dedupFirst l).Nodup :=
  dedupFirst_fold_nodup l [] List.nodup_nil

lemma keys_buildKeyMap_nodup (fs : List Finding) :
    ((buildKeyMap fs).map Prod.fst).Nodup := by
  rw [keys_buildKeyMap]
  exact dedupFirst_nodup _

lemma mem_dictInsert_key (m : List (String × Finding)) (k : String) (v : Finding)
    (hm : ∀ p ∈ m, p.1 = create_key p.2) (hk : k = create_key v) :
    ∀ p ∈ dictInsert m k v, p.1 = create_key p.2 := by
  intro p hp
  unfold dictInsert at hp
  by_cases h : (m.any fun q => q.1 = k) = true
  · rw [if_pos h] at hp
    obtain ⟨q, hq, hqp⟩ := List.mem_map.mp hp
    by_cases hq1 : q.1 = k
    · rw [if_pos hq1] at hqp
      rw [← hqp]
      exact hk
    · rw [if_neg hq1] at hqp
      rw [← hqp]
      exact hm q hq
  · rw [if_neg h] at hp
    rcases List.mem_append.mp hp with h1 | h2
    · exact hm p h1
    · rw [List.mem_singleton.mp h2]
      exact hk

lemma mem_buildKeyMap_key (fs : List Finding) :
    ∀ p ∈ buildKeyMap fs, p.1 = create_key p.2 := by
  unfold buildKeyMap
  suffices h : ∀ m : List (String × Finding), (∀ p ∈ m, p.1 = create_key p.2) →
      ∀ p ∈ fs.foldl (fun m f => dictInsert m (create_key f) f) m, p.1 = create_key p.2 by
    exact h [] (by simp)
  induction fs with
  | nil => intro m hm; exact hm
  | cons f rest ih =>
    intro m hm
    simp only [List.foldl_cons]
    exact ih _ (mem_dictInsert_key m (create_key f) f hm rfl)

lemma lookupKey_map_update_self (m : List (String × Finding)) (k : String) (v : Finding)
    (h : k ∈ m.map Prod.fst) :
    lookupKey (m.map fun p => if p.1 = k then (k, v) else p) k = some v := by
  induction m with
  | nil => simp at h
  | cons p rest ih =>
    by_cases hp : p.1 = k
    · simp [lookupKey, hp]
    · have hr : k ∈ rest.map Prod.fst := by
        rw [List.map_cons] at h
        rcases List.mem_cons.mp h with h1 | h2
        · exact absurd h1.symm hp
        · exact h2
      simpa [lookupKey, hp] using ih hr

lemma lookupKey_map_update_other (m : List (String × Finding)) (k k' : String) (v : Finding)
    (h : k' ≠ k) :
    lookupKey (m.map fun p => if p.1 = k then (k, v) else p) k' = lookupKey m k' := by
  induction m with
  | nil => rfl
  | cons p rest ih =>
    have h1 : ¬k = k' := fun hh => h hh.symm
    by_cases hp : p.1 = k
    · simp [lookupKey, hp, h1, ih, h]
    · by_cases hp' : p.1 = k' <;> simp [lookupKey, hp, hp', ih, h, h1]

lemma lookupKey_append_single (m : List (String × Finding)) (k k' : String) (v : Finding)
    (h : k ∉ m.map Prod.fst) :
    lookupKey (m ++ [(k, v)]) k' = if k' = k then some v else lookupKey m k' := by
  induction m with
  | nil =>
    by_cases hk : k' = k
    · simp [lookupKey, hk]
    · have h1 : ¬k = k' := fun hh => hk hh.symm
      simp [lookupKey, hk, h1]
  | cons p rest ih =>
    have hpk : p.1 ≠ k := fun hh => h (by simp [hh])
    have hr : k ∉ rest.map Prod.fst := fun hh => h (by simp [hh])
    by_cases hp' : p.1 = k'
    · have : ¬k' = k := fun hh => hpk (hp'.trans hh)
      simp [lookupKey, hp', this]
    · simpa [lookupKey, hp'] using ih hr

lemma lookupKey_dictInsert (m : List (String × Finding)) (k k' : String) (v : Finding) :
    lookupKey (dictInsert m k v) k' = if k' = k then some v else lookupKey m k' := by
  unfold dictInsert
  by_cases h : (m.any fun p => p.1 = k) = true
  · rw [if_pos h]
    by_cases hk : k' = k
    · rw [if_pos hk, hk]
      exact lookupKey_map_update_self m k v ((any_key_eq m k).mp h)
    · rw [if_neg hk]
      exact lookupKey_map_update_other m k k' v hk
  · rw [if_neg h]
    exact lookupKey_append_single m k k' v
      (fun hh => h ((any_key_eq m k).mpr hh))

lemma lookupKey_buildKeyMap_lastOcc (fs : List Finding) (k : String) :
    lookupKey (buildKeyMap fs) k = lastOcc fs k := by
  induction fs using List.reverseRecOn with
  | nil => rfl
  | append_singleton rest f ih =>
    unfold buildKeyMap at ih ⊢
    rw [List.foldl_append, List.foldl_cons, List.foldl_nil, lookupKey_dictInsert]
    unfold lastOcc at ih ⊢
    rw [List.filter_append]
    by_cases hk : k = create_key f
    · rw [if_pos hk]
      have : (List.filter (fun f => decide (create_key f = k)) [f]) = [f] := by
        simp [hk]
      rw [this, List.getLast?_concat]
    · rw [if_neg hk]
      have : (List.filter (fun f => decide (create_key f = k)) [f]) = [] := by
        simp; exact fun hh => hk hh.symm
      rw [this, List.append_nil, ih]

lemma lookupKey_of_mem (m : List (String × Finding)) (p : String × Finding)
    (hnd : (m.map Prod.fst).Nodup) (hp : p ∈ m) :
    lookupKey m p.1 = some p.2 := by
  induction m with
  | nil => simp at hp
  | cons q rest ih =>
    have hnd' := hnd
    rw [List.map_cons, List.nodup_cons] at hnd'
    rcases List.mem_cons.mp hp with h1 | h2
    · simp [lookupKey, h1]
    · have hne : q.1 ≠ p.1 := by
        intro hh
        exact hnd'.1 (hh ▸ List.mem_map.mpr ⟨p, h2, rfl⟩)
      rw [lookupKey, if_neg hne]
      exact ih hnd'.2 h2

/-- C4: class-name normalization is idempotent: for every string `x`,
`normalize_class_name (normalize_class_name x) = normalize_class_name x`. -/
theorem normalize_idempotent (x : String) :
    normalize_class_name (normalize_class_name x) = normalize_class_name x :=
  normalize_idem_aux x

/-- C5: two findings whose class names differ only in the nested-type
separator (every `$` replaced by `.`) and that share the same field name
produce identical comparison keys; concretely,
`com.acme.Outer$Inner`/`counter` and `com.acme.Outer.Inner`/`counter`
yield the same key. -/
theorem create_key_separator_equiv :
    (∀ (c fd : String) (t t' : Option String),
      create_key ⟨some c, some fd, t⟩ = create_key ⟨some (normalize_class_name c), some fd, t'⟩)
    ∧ create_key ⟨some "com.acme.Outer$Inner", some "counter", none⟩
        = create_key ⟨some "com.acme.Outer.Inner", some "counter", none⟩ := by
  constructor
  · intro c fd t t'
    simp only [create_key, Option.getD_some]
    rw [normalize_idem_aux]
  · decide

/-- C7: `create_key` is total on malformed findings: a missing `className`
or `fieldName` is replaced by the empty string, so the key degrades to
`"ClassName::"` resp. `"::fieldX"` instead of raising. -/
theorem create_key_total_on_malformed :
    (∀ (c : String) (t : Option String),
      create_key ⟨some c, none, t⟩ = normalize_class_name c ++ "::")
    ∧ (∀ (fd : String) (t : Option String),
      create_key ⟨none, some fd, t⟩ = "::" ++ fd)
    ∧ create_key ⟨some "ClassName", none, none⟩ = "ClassName::"
    ∧ create_key ⟨none, some "fieldX", none⟩ = "::fieldX" := by
  refine ⟨?_, ?_, by decide, by decide⟩
  · intro c t
    simp [create_key]
  · intro fd t
    have h : normalize_class_name "" = "" := rfl
    simp [create_key, h]

/-! Counting and ordering lemmas for the compare function -/

lemma compare_matched_def (A B : List Finding) :
    (compare A B).1 = (buildKeyMap A).filterMap
      (fun p => (lookupKey (buildKeyMap B) p.1).map (fun g => (p.2, g))) := rfl

lemma compare_fp_def (A B : List Finding) :
    (compare A B).2.1 = ((buildKeyMap A).filter
      (fun p => lookupKey (buildKeyMap B) p.1 = none)).map Prod.snd := rfl

lemma compare_fn_def (A B : List Finding) :
    (compare A B).2.2 = ((buildKeyMap B).filter
      (fun p => lookupKey (buildKeyMap A) p.1 = none)).map Prod.snd := rfl

lemma filterMap_tp_length (bk m : List (String × Finding)) :
    (m.filterMap (fun p => (lookupKey bk p.1).map (fun g => (p.2, g)))).length
      = (m.filter (fun p => (lookupKey bk p.1).isSome)).length := by
  induction m with
  | nil => rfl
  | cons p rest ih =>
    cases h : lookupKey bk p.1 <;> simp [List.filterMap_cons, h, ih]

lemma tp_fp_length (bk m : List (String × Finding)) :
    (m.filter (fun p => (lookupKey bk p.1).isSome)).length
      + (m.filter (fun p => lookupKey bk p.1 = none)).length = m.length := by
  induction m with
  | nil => rfl
  | cons p rest ih =>
    cases h : lookupKey bk p.1 <;> simp [h, ih] <;> omega

lemma filter_fst_comm (m : List (String × Finding)) (q : String → Bool) :
    (m.filter (fun p => q p.1)).map Prod.fst = (m.map Prod.fst).filter q := by
  rw [List.filter_map]
  rfl

lemma length_filter_fst (m : List (String × Finding)) (q : String → Bool) :
    (m.filter (fun p => q p.1)).length = ((m.map Prod.fst).filter q).length := by
  rw [← filter_fst_comm, List.length_map]

lemma lookupKey_isSome_eq (m : List (String × Finding)) (k : String) :
    (lookupKey m k).isSome = decide (k ∈ m.map Prod.fst) := by
  cases hs : (lookupKey m k).isSome
  · have h0 : lookupKey m k = none := by
      cases hl : lookupKey m k
      · rfl
      · rw [hl] at hs; simp at hs
    have := (lookupKey_eq_none m k).mp h0
    simp [this]
  · have := (lookupKey_isSome m k).mp hs
    simp [this]

lemma lookupKey_decide_none_eq (m : List (String × Finding)) (k : String) :
    decide (lookupKey m k = none) = !decide (k ∈ m.map Prod.fst) := by
  by_cases h : k ∈ m.map Prod.fst
  · have : ¬lookupKey m k = none := by
      rw [lookupKey_eq_none]; simpa using h
    simp [h, this]
  · have := (lookupKey_eq_none m k).mpr h
    simp [h, this]

lemma filter_mem_length_comm (l1 l2 : List String) (h1 : l1.Nodup) (h2 : l2.Nodup) :
    (l1.filter (fun k => decide (k ∈ l2))).length
      = (l2.filter (fun k => decide (k ∈ l1))).length := by
  have e1 : (l1.filter (fun k => decide (k ∈ l2))).toFinset = l1.toFinset ∩ l2.toFinset := by
    ext x
    simp [List.mem_filter]
  have e2 : (l2.filter (fun k => decide (k ∈ l1))).toFinset = l2.toFinset ∩ l1.toFinset := by
    ext x
    simp [List.mem_filter]
  rw [← List.toFinset_card_of_nodup (h1.filter _), ← List.toFinset_card_of_nodup (h2.filter _),
    e1, e2, Finset.inter_comm]

lemma length_filter_add_length_filter_not (l : List String) (p : String → Bool) :
    (l.filter p).length + (l.filter (fun a => !(p a))).length = l.length := by
  induction l with
  | nil => rfl
  | cons a rest ih =>
    cases h : p a <;> simp [h, ih] <;> omega

lemma filterMap_tp_keys (bk : List (String × Finding)) :
    ∀ m : List (String × Finding), (∀ p ∈ m, p.1 = create_key p.2) →
      (m.filterMap (fun p => (lookupKey bk p.1).map (fun g => (p.2, g)))).map
          (fun pr => create_key pr.1)
        = (m.filter (fun p => (lookupKey bk p.1).isSome)).map Prod.fst := by
  intro m
  induction m with
  | nil => intro _; rfl
  | cons p rest ih =>
    intro hm
    have hp := hm p (List.mem_cons_self p rest)
    have ih' := ih (fun q hq => hm q (List.mem_cons_of_mem p hq))
    cases h : lookupKey bk p.1 <;> simp [List.filterMap_cons, h, ih', hp.symm]

lemma map_snd_create_key (m : List (String × Finding)) (P : String × Finding → Bool)
    (hm : ∀ p ∈ m, p.1 = create_key p.2) :
    ((m.filter P).map Prod.snd).map create_key = (m.filter P).map Prod.fst := by
  rw [List.map_map]
  apply List.map_congr_left
  intro p hp
  exact (hm p (List.mem_of_mem_filter hp)).symm

lemma dedupFirst_fold_eq_append (l : List String) :
    ∀ acc : List String, (acc ++ l).Nodup →
      l.foldl (fun acc k => if k ∈ acc then acc else acc ++ [k]) acc = acc ++ l := by
  induction l with
  | nil => intro acc _; simp
  | cons k rest ih =>
    intro acc h
    have hk : k ∉ acc := by
      rw [List.nodup_append] at h
      exact fun hin => h.2.2 hin (List.mem_cons_self k rest)
    simp only [List.foldl_cons, if_neg hk]
    have h' : ((acc ++ [k]) ++ rest).Nodup := by
      simpa [List.append_assoc] using h
    rw [ih (acc ++ [k]) h']
    simp

lemma dedupFirst_eq_self (l : List String) (h : l.Nodup) : dedupFirst l = l := by
  unfold dedupFirst
  simpa using dedupFirst_fold_eq_append l [] (by simpa using h)

lemma compare_sizes_distinct (A B : List Finding) :
    (compare A B).1.length + (compare A B).2.1.length
        = (dedupFirst (A.map create_key)).length
    ∧ (compare A B).1.length + (compare A B).2.2.length
        = (dedupFirst (B.map create_key)).length := by
  have hAk := keys_buildKeyMap A
  have hBk := keys_buildKeyMap B
  constructor
  · rw [compare_matched_def, compare_fp_def, List.length_map,
      filterMap_tp_length, tp_fp_length]
    rw [← hAk, List.length_map]
  · rw [compare_matched_def, compare_fn_def, List.length_map, filterMap_tp_length]
    have c1 : (buildKeyMap A).filter (fun p => (lookupKey (buildKeyMap B) p.1).isSome)
        = (buildKeyMap A).filter (fun p => decide (p.1 ∈ (buildKeyMap B).map Prod.fst)) :=
      List.filter_congr (fun p _ => lookupKey_isSome_eq (buildKeyMap B) p.1)
    have c2 : (buildKeyMap B).filter (fun p => lookupKey (buildKeyMap A) p.1 = none)
        = (buildKeyMap B).filter (fun p => !decide (p.1 ∈ (buildKeyMap A).map Prod.fst)) :=
      List.filter_congr (fun p _ => lookupKey_decide_none_eq (buildKeyMap A) p.1)
    have l1 : ((buildKeyMap A).filter
          (fun p => decide (p.1 ∈ (buildKeyMap B).map Prod.fst))).length
        = (((buildKeyMap A).map Prod.fst).filter
            (fun k => decide (k ∈ (buildKeyMap B).map Prod.fst))).length :=
      length_filter_fst (buildKeyMap A) (fun k => decide (k ∈ (buildKeyMap B).map Prod.fst))
    have l2 : ((buildKeyMap B).filter
          (fun p => !decide (p.1 ∈ (buildKeyMap A).map Prod.fst))).length
        = (((buildKeyMap B).map Prod.fst).filter
            (fun k => !decide (k ∈ (buildKeyMap A).map Prod.fst))).length :=
      length_filter_fst (buildKeyMap B) (fun k => !decide (k ∈ (buildKeyMap A).map Prod.fst))
    have l3 : (((buildKeyMap A).map Prod.fst).filter
          (fun k => decide (k ∈ (buildKeyMap B).map Prod.fst))).length
        = (((buildKeyMap B).map Prod.fst).filter
            (fun k => decide (k ∈ (buildKeyMap A).map Prod.fst))).length :=
      filter_mem_length_comm _ _ (keys_buildKeyMap_nodup A) (keys_buildKeyMap_nodup B)
    have l4 : (((buildKeyMap B).map Prod.fst).filter
          (fun k => decide (k ∈ (buildKeyMap A).map Prod.fst))).length
        + (((buildKeyMap B).map Prod.fst).filter
            (fun k => !decide (k ∈ (buildKeyMap A).map Prod.fst))).length
        = ((buildKeyMap B).map Prod.fst).length :=
      length_filter_add_length_filter_not ((buildKeyMap B).map Prod.fst)
        (fun k => decide (k ∈ (buildKeyMap A).map Prod.fst))
    rw [c1, c2, l1, l2, l3, l4, hBk]

/-- C10: `compare` partitions the distinct keys of each side:
`|matched| + |aOnly|` is the number of distinct comparison keys of A and
`|matched| + |bOnly|` is the number of distinct comparison keys of B;
duplicate-key entries within a side contribute nothing extra. -/
theorem compare_partition_distinct_keys (A B : List Finding) :
    (compare A B).1.length + (compare A B).2.1.length
        = (dedupFirst (A.map create_key)).length
    ∧ (compare A B).1.length + (compare A B).2.2.length
        = (dedupFirst (B.map create_key)).length :=
  compare_sizes_distinct A B

/-- C1 fails on the code: with two same-key findings on the scanner side
and an empty ground truth, `|matched| + |aOnly|` is 1 while the input
sequence has length 2. -/
theorem compare_partition_sizes_cex :
    ¬(((compare [fDup1, fDup2] []).1.length + (compare [fDup1, fDup2] []).2.1.length
        = ([fDup1, fDup2] : List Finding).length)
      ∧ ((compare [fDup1, fDup2] []).1.length + (compare [fDup1, fDup2] []).2.2.length
        = ([] : List Finding).length)) := by
  decide

/-- C1 amended: when neither side contains duplicate comparison keys,
`|matched| + |aOnly| = |A|` and `|matched| + |bOnly| = |B|`. -/
theorem compare_partition_sizes (A B : List Finding)
    (hA : (A.map create_key).Nodup) (hB : (B.map create_key).Nodup) :
    (compare A B).1.length + (compare A B).2.1.length = A.length
    ∧ (compare A B).1.length + (compare A B).2.2.length = B.length := by
  have h := compare_sizes_distinct A B
  rw [dedupFirst_eq_self _ hA, List.length_map] at h
  rw [dedupFirst_eq_self _ hB, List.length_map] at h
  exact h

/-- Witness for C1's amended theorem at a concrete duplicate-free input. -/
theorem compare_partition_sizes_witness :
    (([fDup1] : List Finding).map create_key).Nodup
    ∧ (([] : List Finding).map create_key).Nodup
    ∧ ((compare [fDup1] []).1.length + (compare [fDup1] []).2.1.length
          = ([fDup1] : List Finding).length
       ∧ (compare [fDup1] []).1.length + (compare [fDup1] []).2.2.length
          = ([] : List Finding).length) :=
  ⟨by decide, by decide, compare_partition_sizes [fDup1] [] (by decide) (by decide)⟩

/-- C6: comparing a collection with itself yields a matched partition
of size the number of distinct comparison keys, and empty false-positive
and false-negative partitions. -/
theorem compare_self_diagonal (A : List Finding) :
    (compare A A).1.length = (dedupFirst (A.map create_key)).length
    ∧ (compare A A).2.1 = [] ∧ (compare A A).2.2 = [] := by
  have hmem : ∀ p ∈ buildKeyMap A, ¬lookupKey (buildKeyMap A) p.1 = none := by
    intro p hp
    rw [lookupKey_eq_none]
    simp only [not_not]
    exact List.mem_map.mpr ⟨p, hp, rfl⟩
  have hfilter : ((buildKeyMap A).filter
      (fun p => lookupKey (buildKeyMap A) p.1 = none)) = [] := by
    rw [List.filter_eq_nil_iff]
    intro p hp
    simpa using hmem p hp
  have hfp : (compare A A).2.1 = [] := by rw [compare_fp_def, hfilter]; rfl
  have hfn : (compare A A).2.2 = [] := by rw [compare_fn_def, hfilter]; rfl
  refine ⟨?_, hfp, hfn⟩
  have h := (compare_sizes_distinct A A).1
  rw [hfp] at h
  simpa using h

/-- C9: the partitions of `compare` list their entries in the
first-occurrence order of the keys of the corresponding input side:
the key sequences of matched and aOnly are exactly the deduplicated key
sequence of A filtered by presence/absence in B's key dict, and the key
sequence of bOnly is the deduplicated key sequence of B filtered by
absence from A's key dict. -/
theorem compare_ordering (A B : List Finding) :
    (compare A B).1.map (fun pr => create_key pr.1)
      = (dedupFirst (A.map create_key)).filter
          (fun k => (lookupKey (buildKeyMap B) k).isSome)
    ∧ (compare A B).2.1.map create_key
      = (dedupFirst (A.map create_key)).filter
          (fun k => lookupKey (buildKeyMap B) k = none)
    ∧ (compare A B).2.2.map create_key
      = (dedupFirst (B.map create_key)).filter
          (fun k => lookupKey (buildKeyMap A) k = none) := by
  refine ⟨?_, ?_, ?_⟩
  · rw [compare_matched_def, ← keys_buildKeyMap, ← filter_fst_comm,
      filterMap_tp_keys _ _ (mem_buildKeyMap_key A)]
  · rw [compare_fp_def, ← keys_buildKeyMap, ← filter_fst_comm,
      map_snd_create_key _ _ (mem_buildKeyMap_key A)]
  · rw [compare_fn_def, ← keys_buildKeyMap, ← filter_fst_comm,
      map_snd_create_key _ _ (mem_buildKeyMap_key B)]

/-! Metrics lemmas -/

lemma metricsSpec_ratio_nonneg (a b : ℕ) :
    (0:ℚ) ≤ (if a + b = 0 then 0 else (a:ℚ)/((a:ℚ)+(b:ℚ))) := by
  split
  · exact le_refl 0
  · positivity

lemma ite_pos_eq_ite_zero {y x : ℚ} (hy : 0 ≤ y) :
    (if y > 0 then x else 0) = (if y = 0 then 0 else x) := by
  by_cases h : y = 0
  · rw [if_neg (by rw [h]; exact lt_irrefl 0), if_pos h]
  · rw [if_pos (lt_of_le_of_ne hy (Ne.symm h)), if_neg h]

lemma computeMetrics_eq_spec (tp fp fn : ℕ) :
    computeMetrics tp fp fn = metricsSpec tp fp fn := by
  simp only [computeMetrics, metricsSpec]
  have hp : (if tp + fp > 0 then (tp : ℚ) / ((tp : ℚ) + (fp : ℚ)) else 0)
      = (if tp + fp = 0 then 0 else (tp : ℚ) / ((tp : ℚ) + (fp : ℚ))) := by
    by_cases h : tp + fp = 0
    · simp [h]
    · simp [h, Nat.pos_of_ne_zero h]
  have hr : (if tp + fn > 0 then (tp : ℚ) / ((tp : ℚ) + (fn : ℚ)) else 0)
      = (if tp + fn = 0 then 0 else (tp : ℚ) / ((tp : ℚ) + (fn : ℚ))) := by
    by_cases h : tp + fn = 0
    · simp [h]
    · simp [h, Nat.pos_of_ne_zero h]
  rw [hp, hr]
  have h0 : (0:ℚ) ≤ (if tp + fp = 0 then 0 else (tp:ℚ)/((tp:ℚ)+(fp:ℚ)))
      + (if tp + fn = 0 then 0 else (tp:ℚ)/((tp:ℚ)+(fn:ℚ))) :=
    add_nonneg (metricsSpec_ratio_nonneg tp fp) (metricsSpec_ratio_nonneg tp fn)
  rw [ite_pos_eq_ite_zero h0]

/-- C2: the metrics of a comparison run follow the spec's formulas —
precision `|matched|/(|matched|+|aOnly|)`, recall
`|matched|/(|matched|+|bOnly|)`, F1 `2·p·r/(p+r)`, each `0` when its
denominator is `0` — and two empty input collections give `(0, 0, 0)`. -/
theorem computeMetrics_follows_spec :
    (∀ A B : List Finding, metricsOf A B
        = metricsSpec (compare A B).1.length (compare A B).2.1.length
            (compare A B).2.2.length)
    ∧ metricsOf [] [] = (0, 0, 0) := by
  constructor
  · intro A B
    exact computeMetrics_eq_spec _ _ _
  · have h : metricsOf [] [] = computeMetrics 0 0 0 := rfl
    rw [h]
    norm_num [computeMetrics]

/-- C8: for duplicate keys within one input side, the finding that
represents the key in the resulting partition (matched pair component,
aOnly entry or bOnly entry) is the last occurrence of that key in the
side's input sequence. -/
theorem compare_last_occurrence (A B : List Finding) :
    (∀ pr ∈ (compare A B).1,
        lastOcc A (create_key pr.1) = some pr.1
          ∧ lastOcc B (create_key pr.1) = some pr.2)
    ∧ (∀ f ∈ (compare A B).2.1, lastOcc A (create_key f) = some f)
    ∧ (∀ f ∈ (compare A B).2.2, lastOcc B (create_key f) = some f) := by
  refine ⟨?_, ?_, ?_⟩
  · intro pr hpr
    rw [compare_matched_def] at hpr
    obtain ⟨p, hp, hsome⟩ := List.mem_filterMap.mp hpr
    obtain ⟨g, hg, hpr_eq⟩ := Option.map_eq_some'.mp hsome
    have hkey : p.1 = create_key p.2 := mem_buildKeyMap_key A p hp
    constructor
    · rw [← hpr_eq]
      show lastOcc A (create_key p.2) = some p.2
      rw [← hkey, ← lookupKey_buildKeyMap_lastOcc]
      exact lookupKey_of_mem _ p (keys_buildKeyMap_nodup A) hp
    · rw [← hpr_eq]
      show lastOcc B (create_key p.2) = some g
      rw [← hkey, ← lookupKey_buildKeyMap_lastOcc]
      exact hg
  · intro f hf
    rw [compare_fp_def] at hf
    obtain ⟨p, hp, hf_eq⟩ := List.mem_map.mp hf
    have hpm := List.mem_of_mem_filter hp
    have hkey : p.1 = create_key p.2 := mem_buildKeyMap_key A p hpm
    rw [← hf_eq, ← hkey, ← lookupKey_buildKeyMap_lastOcc]
    exact lookupKey_of_mem _ p (keys_buildKeyMap_nodup A) hpm
  · intro f hf
    rw [compare_fn_def] at hf
    obtain ⟨p, hp, hf_eq⟩ := List.mem_map.mp hf
    have hpm := List.mem_of_mem_filter hp
    have hkey : p.1 = create_key p.2 := mem_buildKeyMap_key B p hpm
    rw [← hf_eq, ← hkey, ← lookupKey_buildKeyMap_lastOcc]
    exact lookupKey_of_mem _ p (keys_buildKeyMap_nodup B) hpm

/-- Witness for C8 at a concrete input with a duplicate key: the aOnly
representative of the duplicated key is the second (last) occurrence. -/
theorem compare_last_occurrence_witness :
    fDup2 ∈ (compare [fDup1, fDup2] []).2.1
    ∧ lastOcc [fDup1, fDup2] (create_key fDup2) = some fDup2 :=
  ⟨by decide, (compare_last_occurrence [fDup1, fDup2] []).2.1 fDup2 (by decide)⟩

/-- C3: `categorize_by_type` returns the label of the first matching
predicate of the fixed ordered table (ThreadLocal, Metrics, Cache, Map,
List, Set, Atomic, Recorder, catch-all Other); in particular the field
type `ConcurrentHashMap<String,Counter>` is assigned to `Metrics`. -/
theorem categorize_first_match :
    (∀ t : String, categorize_by_type t = firstMatchLabel t)
    ∧ categorize_by_type "ConcurrentHashMap<String,Counter>" = "Metrics" := by
  constructor
  · intro t
    unfold categorize_by_type firstMatchLabel predTable
    simp only [List.find?]
    cases hasSub t "ThreadLocal" || hasSub t "FastThreadLocal" <;>
    cases hasSub t "Counter" || hasSub t "Gauge" || hasSub t "Histogram" || hasSub t "Summary" <;>
    cases hasSub t "Cache" || hasSub t "LoadingCache" <;>
    cases hasSub t "Map" || hasSub t "HashMap" || hasSub t "ConcurrentHashMap" <;>
    cases hasSub t "List" || hasSub t "ArrayList" <;>
    cases hasSub t "Set" <;>
    cases hasSub t "Atomic" <;>
    cases hasSub t "Recorder" <;>
    rfl
  · decide

end StateScan
